import Mathlib

/-!
Verification of the semantic UI hierarchy pipeline: the pruning/flattening
engine over normalized accessibility trees (src/perception/hierarchy.ts),
the element query engine (src/perception/element.ts: parseBounds,
findElement, waitForElement, scrollToElement).

Strings model JS strings; the empty string plays the role of an
absent/undefined attribute, matching the JS truthiness checks and the
conditional-spread object construction used by the source
(`...(text ? { text } : {})`), under which the empty string and an absent
field are indistinguishable to every consumer in the code.
-/

/-! ## String helpers (JS semantics) -/

/-- Does the first list occur as a leading segment of the second list? -/
def listLeads : List Char → List Char → Bool
| [], _ => true
| _ :: _, [] => false
| a :: as, b :: bs => a == b && listLeads as bs

/-- Does the first list occur contiguously anywhere inside the second list?
Models JS `String.prototype.includes` on the underlying characters. -/
def listOccurs (needle : List Char) : List Char → Bool
| [] => needle.isEmpty
| h :: t => listLeads needle (h :: t) || listOccurs needle t

/-- JS `hay.includes(needle)`. -/
def strContains (hay needle : String) : Bool := listOccurs needle.data hay.data

/-- JS `s.endsWith(suffixStr)`. -/
def strEndsWith (s suffixStr : String) : Bool :=
  listLeads suffixStr.data.reverse s.data.reverse

/-- JS `s.toLowerCase()` (ASCII case mapping). -/
def toLowerStr (s : String) : String := String.mk (s.data.map Char.toLower)

/-- JS `a || b` on strings: the empty string is falsy. -/
def jsOr (a b : String) : String := if a == "" then b else a

/-- The text-truncation step of the pruning engine:
`if (text.length > 50) text = text.substring(0, 50) + "..."`. -/
def truncateText (s : String) : String :=
  if 50 < s.data.length then String.mk (s.data.take 50) ++ "..." else s

/-! ## Normalized / pruned node model

`SNode` is the `SimplifiedNode` record of hierarchy.ts: `type` plus the
optional attributes (empty string / `false` standing for an absent field)
and the (possibly empty) child list. -/

inductive SNode where
| mk (type text resourceId contentDesc bounds : String)
     (clickable enabled focused selected : Bool)
     (children : List SNode)

def SNode.type : SNode → String
| .mk t _ _ _ _ _ _ _ _ _ => t

def SNode.text : SNode → String
| .mk _ tx _ _ _ _ _ _ _ _ => tx

def SNode.resourceId : SNode → String
| .mk _ _ rid _ _ _ _ _ _ _ => rid

def SNode.contentDesc : SNode → String
| .mk _ _ _ cd _ _ _ _ _ _ => cd

def SNode.bounds : SNode → String
| .mk _ _ _ _ b _ _ _ _ _ => b

def SNode.clickable : SNode → Bool
| .mk _ _ _ _ _ cl _ _ _ _ => cl

def SNode.enabled : SNode → Bool
| .mk _ _ _ _ _ _ en _ _ _ => en

def SNode.focused : SNode → Bool
| .mk _ _ _ _ _ _ _ fo _ _ => fo

def SNode.selected : SNode → Bool
| .mk _ _ _ _ _ _ _ _ se _ => se

def SNode.children : SNode → List SNode
| .mk _ _ _ _ _ _ _ _ _ ch => ch

/-- The per-node attributes a platform normalizer extracts before the
shared truncate/flatten/prune logic runs (`text` still untruncated). -/
structure NodeFields where
  type : String
  text : String
  resourceId : String
  contentDesc : String
  bounds : String
  clickable : Bool
  enabled : Bool
  focused : Bool
  selected : Bool

/-- Assembling the output `SimplifiedNode` object literal (with the already
truncated text). -/
def buildNode (f : NodeFields) (text : String) (children : List SNode) : SNode :=
  .mk f.type text f.resourceId f.contentDesc f.bounds
      f.clickable f.enabled f.focused f.selected children

/-- The platform-independent tail of both `pruneAndSimplifyMaestroNode` and
`pruneAndSimplifyAndroidNode` (hierarchy.ts lines 107-170 / 191-254): text
truncation, the flattening rule on a single surviving child, the leaf
pruning rule, and node assembly. `children` is the list of already-pruned
surviving children. -/
def simplifyStep (f : NodeFields) (children : List SNode) : Option SNode :=
  let text := truncateText f.text
  let hasContent := !(text == "") || !(f.contentDesc == "")
  match children with
  | [c] =>
    if ((f.resourceId == "") && !hasContent)
        && (!f.clickable
            || (f.clickable
                && (c.clickable
                    || strContains c.type "Button"
                    || strContains c.type "Text")))
    then some c
    else some (buildNode f text [c])
  | [] =>
    if !hasContent && !f.clickable && (f.resourceId == "")
    then none
    else some (buildNode f text [])
  | cs => some (buildNode f text cs)

/-! ## Android normalizer (`pruneAndSimplifyAndroidNode`)

Raw uiautomator XML node: string attributes (an absent attribute is the
empty string; booleans are compared against the literal string "true"). -/

inductive ARaw where
| mk (text resourceId contentDesc bounds cls clickable enabled focused selected : String)
     (children : List ARaw)

def ARaw.children : ARaw → List ARaw
| .mk _ _ _ _ _ _ _ _ _ ch => ch

/-- Attribute extraction of `pruneAndSimplifyAndroidNode`:
`attributes.class || "unknown"`, `attributes.clickable === "true"`, etc. -/
def aFields : ARaw → NodeFields
| .mk tx rid cd b cls cl en fo se _ =>
  ⟨if cls == "" then "unknown" else cls, tx, rid, cd, b,
   cl == "true", en == "true", fo == "true", se == "true"⟩

mutual

/-- `pruneAndSimplifyAndroidNode(node, depth)`: the source threads a
`depth` argument, incremented on each recursive call. -/
def pruneAndroidNodeD : ARaw → Nat → Option SNode
| r@(.mk _ _ _ _ _ _ _ _ _ ch), depth =>
  simplifyStep (aFields r) (pruneAChildrenD ch (depth + 1))

/-- The child loop: recurse on each raw child, keep non-null results. -/
def pruneAChildrenD : List ARaw → Nat → List SNode
| [], _ => []
| c :: cs, d =>
  match pruneAndroidNodeD c d with
  | some r => r :: pruneAChildrenD cs d
  | none => pruneAChildrenD cs d

end

/-- `pruneAndSimplifyAndroidNode(node)` with the default `depth = 0`. -/
def pruneAndroidNode (r : ARaw) : Option SNode := pruneAndroidNodeD r 0

/-! ## iOS/Maestro normalizer (`pruneAndSimplifyMaestroNode`)

Raw Maestro JSON node: the attribute map matters only through the keys the
extractor reads; boolean flags are JS booleans compared with `=== true`. -/

inductive MRaw where
| mk (text accessibilityText title value resourceId hintText bounds : String)
     (clickable enabled focused selected : Bool)
     (children : List MRaw)

def MRaw.children : MRaw → List MRaw
| .mk _ _ _ _ _ _ _ _ _ _ _ ch => ch

/-- Attribute extraction of `pruneAndSimplifyMaestroNode`:
`text || accessibilityText || title || value`, fixed type "UIElement",
`contentDesc = accessibilityText || hintText`. -/
def mFields : MRaw → NodeFields
| .mk tx ax ti va rid ht b cl en fo se _ =>
  ⟨"UIElement", jsOr (jsOr (jsOr tx ax) ti) va, rid, jsOr ax ht, b, cl, en, fo, se⟩

mutual

/-- `pruneAndSimplifyMaestroNode(node, depth)`. -/
def pruneMaestroNodeD : MRaw → Nat → Option SNode
| r@(.mk _ _ _ _ _ _ _ _ _ _ _ ch), depth =>
  simplifyStep (mFields r) (pruneMChildrenD ch (depth + 1))

/-- The child loop of the Maestro variant. -/
def pruneMChildrenD : List MRaw → Nat → List SNode
| [], _ => []
| c :: cs, d =>
  match pruneMaestroNodeD c d with
  | some r => r :: pruneMChildrenD cs d
  | none => pruneMChildrenD cs d

end

/-- `pruneAndSimplifyMaestroNode(node)` with the default `depth = 0`. -/
def pruneMaestroNode (r : MRaw) : Option SNode := pruneMaestroNodeD r 0

/-! ## The engine re-run on its own output

A pruned `SNode` carries exactly the fields the engine's shared logic
consumes, so running the pruning engine again on an already-pruned tree is
`simplifyStep` applied recursively to each node's own fields. -/

mutual

/-- The prune-and-simplify transform applied to an already-normalized
(in particular, already-pruned) tree. -/
def pruneSimplifiedNode : SNode → Option SNode
| .mk t tx rid cd b cl en fo se ch =>
  simplifyStep ⟨t, tx, rid, cd, b, cl, en, fo, se⟩ (pruneSChildren ch)

/-- The child loop of the re-run. -/
def pruneSChildren : List SNode → List SNode
| [] => []
| c :: cs =>
  match pruneSimplifiedNode c with
  | some r => r :: pruneSChildren cs
  | none => pruneSChildren cs

end

example :
    pruneAndroidNode
      (.mk "" "" "" "" "" "" "" "" ""
        [.mk "" "" "" "" "" "" "" "" ""
          [.mk "OK" "" "" "" "android.widget.TextView" "" "" "" "" []]]) =
    some (.mk "android.widget.TextView" "OK" "" "" "" false false false false []) := rfl

example :
    pruneMaestroNode
      (.mk "" "" "" "" "" "" "" false false false false
        [.mk "" "" "" "" "" "" "" false false false false
          [.mk "OK" "" "" "" "" "" "" false false false false []]]) =
    some (.mk "UIElement" "OK" "" "" "" false false false false []) := rfl

/-! ## Bounds parsing (`parseBounds`, element.ts lines 33-61)

The source matches the unanchored regex pattern of four bracketed decimal
groups and builds the coordinate record. The matcher below is the
deterministic reading of that regex: at each start position try a literal
match with maximal-munch digit groups (equivalent to the regex's greedy
`\d+`, since each group is followed by a non-digit literal), scanning left
to right for the first matching position. -/

/-- Take the maximal leading run of decimal digits. -/
def munchDigits : List Char → List Char × List Char
| [] => ([], [])
| c :: cs =>
  if c.isDigit then
    let p := munchDigits cs
    (c :: p.1, p.2)
  else ([], c :: cs)

/-- Numeric value of a decimal digit string (JS `parseInt` on the captured
group, which is all digits). -/
def parseNatDigits (ds : List Char) : Nat :=
  ds.foldl (fun a c => a * 10 + (c.toNat - 48)) 0

/-- Expect one literal character. -/
def expectChar (c : Char) : List Char → Option (List Char)
| [] => none
| x :: xs => if x == c then some xs else none

/-- Expect a nonempty digit group; return its value and the rest. -/
def expectNum (cs : List Char) : Option (Nat × List Char) :=
  match munchDigits cs with
  | ([], _) => none
  | (ds, rest) => some (parseNatDigits ds, rest)

/-- One bracketed pair `[n,m]`: literal `[`, greedy digit group, literal
`,`, greedy digit group, literal `]`; returns the two values and the rest. -/
def matchGroup (cs : List Char) : Option (Nat × Nat × List Char) :=
  match expectChar '[' cs with
  | none => none
  | some cs =>
  match expectNum cs with
  | none => none
  | some (a, cs) =>
  match expectChar ',' cs with
  | none => none
  | some cs =>
  match expectNum cs with
  | none => none
  | some (b, cs) =>
  match expectChar ']' cs with
  | none => none
  | some cs => some (a, b, cs)

/-- Attempt the full pattern (two consecutive bracketed pairs) at the
current position. -/
def matchBoundsAt (cs : List Char) : Option (Nat × Nat × Nat × Nat) :=
  match matchGroup cs with
  | none => none
  | some (a, b, cs) =>
  match matchGroup cs with
  | none => none
  | some (c, d, _) => some (a, b, c, d)

/-- Scan left to right for the first position where the pattern matches. -/
def scanBounds : List Char → Option (Nat × Nat × Nat × Nat)
| [] => none
| c :: cs =>
  match matchBoundsAt (c :: cs) with
  | some r => some r
  | none => scanBounds cs

/-- The coordinate record `parseBounds` returns.  JS `Math.round` on
`(left+right)/2` of non-negative integers is `(left+right+1)/2` in integer
division (halves round up).  `width`/`height` are plain differences and may
be negative, hence `Int`. -/
structure BRect where
  left : Int
  top : Int
  right : Int
  bottom : Int
  centerX : Int
  centerY : Int
  width : Int
  height : Int
deriving DecidableEq

/-- Build the record from the four parsed groups. -/
def mkBRect (a b c d : Nat) : BRect :=
  ⟨a, b, c, d, ((a + c + 1) / 2 : Nat), ((b + d + 1) / 2 : Nat),
   (c : Int) - (a : Int), (d : Int) - (b : Int)⟩

/-- `parseBounds(bounds)`: first regex match anywhere in the string, or
`null` (here `none`) when the pattern occurs nowhere. -/
def parseBounds (s : String) : Option BRect :=
  (scanBounds s.data).map (fun r => mkBRect r.1 r.2.1 r.2.2.1 r.2.2.2)

example : parseBounds "[10,20][110,220]" =
    some ⟨10, 20, 110, 220, 60, 120, 100, 200⟩ := rfl

example : parseBounds "noise[1,2][3,4]tail" = some ⟨1, 2, 3, 4, 2, 3, 2, 2⟩ := rfl

example : parseBounds "[10,20][110,220" = none := rfl

example : parseBounds "[a,20][110,220]" = none := rfl

/-! ## Element query engine (`findElement`, element.ts lines 63-129) -/

/-- The three lookup strategies. -/
inductive Strategy where
| testId
| text
| contentDescription

/-- The per-node match test of `traverse`: `testId` is a suffix match on
`resourceId`, `text` / `contentDescription` are case-insensitive substring
matches, each guarded by the attribute being present (nonempty). -/
def matchesNode (selector : String) (strategy : Strategy) (n : SNode) : Bool :=
  match strategy with
  | .testId => !(n.resourceId == "") && strEndsWith n.resourceId selector
  | .text => !(n.text == "") && strContains (toLowerStr n.text) (toLowerStr selector)
  | .contentDescription =>
      !(n.contentDesc == "") && strContains (toLowerStr n.contentDesc) (toLowerStr selector)

/-- `ElementWithCoordinates`: the node's attributes minus `children`, plus
the parsed coordinates when bounds are present and parse. -/
structure ElemCoords where
  type : String
  text : String
  resourceId : String
  contentDesc : String
  bounds : String
  clickable : Bool
  enabled : Bool
  focused : Bool
  selected : Bool
  coords : Option BRect
deriving DecidableEq

/-- Constructing one result: copy the non-child attributes; if `bounds` is
present and `parseBounds` succeeds, merge the eight coordinate fields in,
otherwise leave them absent. -/
def enrichNode (n : SNode) : ElemCoords :=
  ⟨n.type, n.text, n.resourceId, n.contentDesc, n.bounds,
   n.clickable, n.enabled, n.focused, n.selected,
   if n.bounds == "" then none else parseBounds n.bounds⟩

mutual

/-- The recursive `traverse` of `findElement`, with the mutable `matches`
array made an explicit accumulator: test the node, push a result on match,
then recurse into every child (no short-circuit). -/
def traverseFind (selector : String) (strategy : Strategy) :
    SNode → List ElemCoords → List ElemCoords
| n@(.mk _ _ _ _ _ _ _ _ _ ch), acc =>
  traverseFindList selector strategy ch
    (if matchesNode selector strategy n then acc ++ [enrichNode n] else acc)

/-- The child loop of `traverse`. -/
def traverseFindList (selector : String) (strategy : Strategy) :
    List SNode → List ElemCoords → List ElemCoords
| [], acc => acc
| c :: cs, acc => traverseFindList selector strategy cs (traverseFind selector strategy c acc)

end

/-- `findElement` on the (already fetched and pruned) tree. -/
def findElement (root : SNode) (selector : String) (strategy : Strategy) :
    List ElemCoords :=
  traverseFind selector strategy root []

mutual

/-- Document (pre-order) order of the nodes of a tree: the node itself,
then the nodes of each child subtree in order. -/
def preorderNodes : SNode → List SNode
| n@(.mk _ _ _ _ _ _ _ _ _ ch) => n :: preorderList ch

/-- Pre-order concatenated over a forest. -/
def preorderList : List SNode → List SNode
| [] => []
| c :: cs => preorderNodes c ++ preorderList cs

end

/-! ## Wait controller (`waitForElement`, element.ts lines 131-152)

Idealized-time model of the polling loop: each fetch+find poll is
instantaneous, each sleep advances the clock by exactly 1000 ms, and
`found k` tells whether the k-th poll (0-based) sees at least one match.
The loop polls while the elapsed clock is below `timeoutMs` and otherwise
raises the timeout error. -/

/-- Outcome of the wait loop: success after a number of polls at a given
elapsed time, or the timeout error at the elapsed time it is raised. -/
inductive WaitResult where
| success (polls : Nat) (elapsedMs : Nat)
| timeout (elapsedMs : Nat)
deriving DecidableEq

/-- The `while (Date.now() - startTime < timeoutMs)` loop body. -/
def waitLoop (found : Nat → Bool) (timeoutMs k elapsed : Nat) : WaitResult :=
  if elapsed < timeoutMs then
    if found k then .success (k + 1) elapsed
    else waitLoop found timeoutMs (k + 1) (elapsed + 1000)
  else .timeout elapsed
termination_by timeoutMs - elapsed
decreasing_by omega

/-- `waitForElement` with the given poll outcomes and timeout. -/
def waitForElement (found : Nat → Bool) (timeoutMs : Nat) : WaitResult :=
  waitLoop found timeoutMs 0 0

/-- The default `timeoutMs` of `waitForElement`. -/
def waitDefaultTimeoutMs : Nat := 10000

/-! ## Scroll controller (`scrollToElement`, element.ts lines 266-317)

The swipe-vector computation, over exact rationals (JS numbers here never
lose precision to floating point at the scales involved, and the source
performs no further rounding: `scrollDistance / 2` is a plain division). -/

/-- The two platforms. -/
inductive Platform where
| android
| ios
deriving DecidableEq

/-- The four scroll directions. -/
inductive ScrollDirection where
| up
| down
| left
| right

/-- JS `Math.round`: halves round toward positive infinity. -/
def jsRound (q : ℚ) : ℤ := ⌊q + 1 / 2⌋

/-- A swipe vector, start point to end point. -/
structure SwipeCoords where
  x1 : ℚ
  y1 : ℚ
  x2 : ℚ
  y2 : ℚ
deriving DecidableEq

/-- The swipe-vector computation of `scrollToElement`: divide the viewport
by the platform scale factor (3 on iOS, 1 on Android), round, take the
center, set `scrollDistance = Math.round(screenHeight / 3)`, and offset the
start/end by `scrollDistance / 2` along the axis, sign inverted relative to
the scroll direction. -/
def scrollSwipeCoords (platform : Platform) (direction : ScrollDirection)
    (originalWidth originalHeight : ℚ) : SwipeCoords :=
  let scaleFactor : ℚ := match platform with | .ios => 3 | .android => 1
  let screenWidth : ℚ := jsRound (originalWidth / scaleFactor)
  let screenHeight : ℚ := jsRound (originalHeight / scaleFactor)
  let centerX : ℚ := jsRound (screenWidth / 2)
  let centerY : ℚ := jsRound (screenHeight / 2)
  let scrollDistance : ℚ := jsRound (screenHeight / 3)
  match direction with
  | .down => ⟨centerX, centerY + scrollDistance / 2, centerX, centerY - scrollDistance / 2⟩
  | .up => ⟨centerX, centerY - scrollDistance / 2, centerX, centerY + scrollDistance / 2⟩
  | .right => ⟨centerX + scrollDistance / 2, centerY, centerX - scrollDistance / 2, centerY⟩
  | .left => ⟨centerX - scrollDistance / 2, centerY, centerX + scrollDistance / 2, centerY⟩

/-! ## Spec-side predicates and shapes -/

mutual

/-- The `PrunedNode` invariant as the spec states it: every leaf has text
or content-description, or is clickable, or has a resourceId; every node
with children has at least 2 children or content/identity of its own; and
the same recursively below. -/
def prunedInvariant : SNode → Bool
| .mk _ tx rid cd _ cl _ _ _ ch =>
  (match ch with
   | [] => !(tx == "") || !(cd == "") || cl || !(rid == "")
   | [_] => !(tx == "") || !(cd == "") || !(rid == "")
   | _ => true)
  && prunedInvariantList ch

/-- The invariant over a child list. -/
def prunedInvariantList : List SNode → Bool
| [] => true
| c :: cs => prunedInvariant c && prunedInvariantList cs

end

mutual

/-- The amended `PrunedNode` invariant: a single-child container may also
be justified by being clickable itself (the flattening rule's exception
keeps exactly those containers). -/
def prunedInvariantAmended : SNode → Bool
| .mk _ tx rid cd _ cl _ _ _ ch =>
  (match ch with
   | [] => !(tx == "") || !(cd == "") || cl || !(rid == "")
   | [_] => !(tx == "") || !(cd == "") || !(rid == "") || cl
   | _ => true)
  && prunedInvariantAmendedList ch

/-- The amended invariant over a child list. -/
def prunedInvariantAmendedList : List SNode → Bool
| [] => true
| c :: cs => prunedInvariantAmended c && prunedInvariantAmendedList cs

end

/-- ASCII whitespace (the characters relevant to the spec's trim remark). -/
def isWhitespaceChar (c : Char) : Bool :=
  c == ' ' || c == '\t' || c == '\n' || c == '\r'

/-- Is the string whitespace-only? -/
def strAllWhitespace (s : String) : Bool := s.data.all isWhitespaceChar

/-- A nonempty all-digit capture group. -/
def digitsGroup (ds : List Char) : Prop := ds ≠ [] ∧ ∀ c ∈ ds, c.isDigit

instance (ds : List Char) : Decidable (digitsGroup ds) :=
  inferInstanceAs (Decidable (ds ≠ [] ∧ ∀ c ∈ ds, c.isDigit = true))

/-- The characters of a well-formed bounds substring built from four digit
groups: the text of `"[a,b][c,d]"`. -/
def boundsShape (da db dc dd : List Char) : List Char :=
  '[' :: da ++ ',' :: db ++ ']' :: '[' :: dc ++ ',' :: dd ++ [']']

/-- A well-formed bounds substring starts at the head of `cs`. -/
def boundsShapeAt (cs : List Char) : Prop :=
  ∃ da db dc dd rest, digitsGroup da ∧ digitsGroup db ∧ digitsGroup dc ∧ digitsGroup dd ∧
    cs = boundsShape da db dc dd ++ rest

/-- The platform scale factor of `scrollToElement`: iOS accessibility
coordinates are points, 1/3 of raw pixels on 3x Retina; Android uses raw
pixels. -/
def platformScale : Platform → ℚ
| .ios => 3
| .android => 1

/-- The amended description of the swipe-vector computation: the viewport
is divided by the platform scale factor and JS-rounded; the center is the
JS-rounded half of each rounded dimension; the swipe distance is
`Math.round(screenHeight / 3)` for every direction — one third of the
screen height, even for horizontal scrolls — and the start/end offset from
center is the exact, unrounded `scrollDistance / 2`. -/
def swipeSpecAmended (p : Platform) (d : ScrollDirection) (w h : ℚ) : SwipeCoords :=
  let sw : ℚ := jsRound (w / platformScale p)
  let sh : ℚ := jsRound (h / platformScale p)
  let cX : ℚ := jsRound (sw / 2)
  let cY : ℚ := jsRound (sh / 2)
  let dist : ℚ := jsRound (sh / 3)
  match d with
  | .down => ⟨cX, cY + dist / 2, cX, cY - dist / 2⟩
  | .up => ⟨cX, cY - dist / 2, cX, cY + dist / 2⟩
  | .right => ⟨cX + dist / 2, cY, cX - dist / 2, cY⟩
  | .left => ⟨cX - dist / 2, cY, cX + dist / 2, cY⟩

/-! ## Basic lemmas about the shared engine pieces -/

theorem truncateText_data (s : String) :
    (truncateText s).data =
    if 50 < s.data.length then s.data.take 50 ++ ['.', '.', '.'] else s.data := by
  unfold truncateText
  split
  · simp [String.data_append]
  · rfl

theorem truncateText_idem (s : String) : truncateText (truncateText s) = truncateText s := by
  by_cases h : 50 < s.data.length
  · have hdata : (truncateText s).data = s.data.take 50 ++ ['.', '.', '.'] := by
      rw [truncateText_data, if_pos h]
    have htklen : (s.data.take 50).length = 50 := by
      rw [List.length_take]
      omega
    have hlen : (truncateText s).data.length = 53 := by
      rw [hdata, List.length_append, htklen]
      rfl
    apply String.ext
    rw [truncateText_data, if_pos (by omega), hdata,
        List.take_append_of_le_length (by omega), List.take_take]
    simp
  · have hid : truncateText s = s := by unfold truncateText; rw [if_neg h]
    rw [hid, hid]

theorem truncateText_empty : truncateText "" = "" := rfl

theorem truncateText_ne_empty {s : String} (h : s ≠ "") : truncateText s ≠ "" := by
  unfold truncateText
  split
  · intro hc
    have := congrArg String.data hc
    simp [String.data_append] at this
  · exact h

theorem buildNode_def (f : NodeFields) (text : String) (ch : List SNode) :
    buildNode f text ch =
    .mk f.type text f.resourceId f.contentDesc f.bounds
        f.clickable f.enabled f.focused f.selected ch := rfl

theorem simplifyStep_nil (f : NodeFields) :
    simplifyStep f [] =
    if !(!(truncateText f.text == "") || !(f.contentDesc == ""))
        && !f.clickable && (f.resourceId == "")
    then none
    else some (buildNode f (truncateText f.text) []) := rfl

theorem simplifyStep_single (f : NodeFields) (c : SNode) :
    simplifyStep f [c] =
    if ((f.resourceId == "") && !(!(truncateText f.text == "") || !(f.contentDesc == "")))
        && (!f.clickable
            || (f.clickable
                && (c.clickable
                    || strContains c.type "Button"
                    || strContains c.type "Text")))
    then some c
    else some (buildNode f (truncateText f.text) [c]) := rfl

theorem simplifyStep_multi (f : NodeFields) (c1 c2 : SNode) (cs : List SNode) :
    simplifyStep f (c1 :: c2 :: cs) =
    some (buildNode f (truncateText f.text) (c1 :: c2 :: cs)) := rfl

/-! ## Unfolding and membership lemmas for the recursive pruners -/

theorem pruneAndroidNodeD_eq (r : ARaw) (d : Nat) :
    pruneAndroidNodeD r d = simplifyStep (aFields r) (pruneAChildrenD r.children (d + 1)) := by
  cases r; rfl

theorem pruneMaestroNodeD_eq (r : MRaw) (d : Nat) :
    pruneMaestroNodeD r d = simplifyStep (mFields r) (pruneMChildrenD r.children (d + 1)) := by
  cases r; rfl

theorem pruneSimplifiedNode_eq (n : SNode) :
    pruneSimplifiedNode n =
    simplifyStep
      ⟨n.type, n.text, n.resourceId, n.contentDesc, n.bounds,
       n.clickable, n.enabled, n.focused, n.selected⟩
      (pruneSChildren n.children) := by
  cases n; rfl

theorem mem_pruneAChildrenD : ∀ (cs : List ARaw) (d : Nat) (t : SNode),
    t ∈ pruneAChildrenD cs d → ∃ c ∈ cs, pruneAndroidNodeD c d = some t := by
  intro cs d
  induction cs with
  | nil => intro t h; simp [pruneAChildrenD] at h
  | cons c cs ih =>
    intro t h
    rw [pruneAChildrenD] at h
    rcases hc : pruneAndroidNodeD c d with _ | r
    · rw [hc] at h
      obtain ⟨c0, hc0, h0⟩ := ih t h
      exact ⟨c0, List.mem_cons_of_mem _ hc0, h0⟩
    · rw [hc] at h
      rcases List.mem_cons.mp h with h1 | h1
      · exact ⟨c, List.mem_cons_self _ _, by rw [hc, h1]⟩
      · obtain ⟨c0, hc0, h0⟩ := ih t h1
        exact ⟨c0, List.mem_cons_of_mem _ hc0, h0⟩

theorem mem_pruneMChildrenD : ∀ (cs : List MRaw) (d : Nat) (t : SNode),
    t ∈ pruneMChildrenD cs d → ∃ c ∈ cs, pruneMaestroNodeD c d = some t := by
  intro cs d
  induction cs with
  | nil => intro t h; simp [pruneMChildrenD] at h
  | cons c cs ih =>
    intro t h
    rw [pruneMChildrenD] at h
    rcases hc : pruneMaestroNodeD c d with _ | r
    · rw [hc] at h
      obtain ⟨c0, hc0, h0⟩ := ih t h
      exact ⟨c0, List.mem_cons_of_mem _ hc0, h0⟩
    · rw [hc] at h
      rcases List.mem_cons.mp h with h1 | h1
      · exact ⟨c, List.mem_cons_self _ _, by rw [hc, h1]⟩
      · obtain ⟨c0, hc0, h0⟩ := ih t h1
        exact ⟨c0, List.mem_cons_of_mem _ hc0, h0⟩

theorem mem_pruneSChildren : ∀ (cs : List SNode) (t : SNode),
    t ∈ pruneSChildren cs → ∃ c ∈ cs, pruneSimplifiedNode c = some t := by
  intro cs
  induction cs with
  | nil => intro t h; simp [pruneSChildren] at h
  | cons c cs ih =>
    intro t h
    rw [pruneSChildren] at h
    rcases hc : pruneSimplifiedNode c with _ | r
    · rw [hc] at h
      obtain ⟨c0, hc0, h0⟩ := ih t h
      exact ⟨c0, List.mem_cons_of_mem _ hc0, h0⟩
    · rw [hc] at h
      rcases List.mem_cons.mp h with h1 | h1
      · exact ⟨c, List.mem_cons_self _ _, by rw [hc, h1]⟩
      · obtain ⟨c0, hc0, h0⟩ := ih t h1
        exact ⟨c0, List.mem_cons_of_mem _ hc0, h0⟩

theorem sizeOf_lt_of_mem_aChildren {c : ARaw} {r : ARaw} (h : c ∈ r.children) :
    sizeOf c < sizeOf r := by
  cases r with
  | mk tx rid cd b cls cl en fo se ch =>
    have := List.sizeOf_lt_of_mem h
    simp only [ARaw.mk.sizeOf_spec]
    simp only [ARaw.children] at this
    omega

theorem sizeOf_lt_of_mem_mChildren {c : MRaw} {r : MRaw} (h : c ∈ r.children) :
    sizeOf c < sizeOf r := by
  cases r with
  | mk tx ax ti va rid ht b cl en fo se ch =>
    have := List.sizeOf_lt_of_mem h
    simp only [MRaw.mk.sizeOf_spec]
    simp only [MRaw.children] at this
    omega

theorem sizeOf_lt_of_mem_sChildren {c : SNode} {n : SNode} (h : c ∈ n.children) :
    sizeOf c < sizeOf n := by
  cases n with
  | mk t tx rid cd b cl en fo se ch =>
    have := List.sizeOf_lt_of_mem h
    simp only [SNode.mk.sizeOf_spec]
    simp only [SNode.children] at this
    omega

/-! ## Generic preservation through the recursive pruners

Any property of pruned nodes that is preserved by one `simplifyStep` (given
it holds of all surviving children) holds of every node either platform
pruner produces. -/

theorem pruneAndroid_preserves (P : SNode → Prop)
    (hstep : ∀ f children t, (∀ c ∈ children, P c) → simplifyStep f children = some t → P t) :
    ∀ (r : ARaw) (d : Nat) (t : SNode), pruneAndroidNodeD r d = some t → P t := by
  have key : ∀ (n : Nat) (r : ARaw), sizeOf r ≤ n →
      ∀ (d : Nat) (t : SNode), pruneAndroidNodeD r d = some t → P t := by
    intro n
    induction n with
    | zero =>
      intro r h
      exfalso
      cases r with
      | mk tx rid cd b cls cl en fo se ch => simp only [ARaw.mk.sizeOf_spec] at h; omega
    | succ n ih =>
      intro r hr d t hp
      rw [pruneAndroidNodeD_eq] at hp
      refine hstep _ _ _ ?_ hp
      intro c hc
      obtain ⟨c0, hc0, hpc⟩ := mem_pruneAChildrenD _ _ _ hc
      have hlt : sizeOf c0 < sizeOf r := sizeOf_lt_of_mem_aChildren hc0
      exact ih c0 (by omega) _ _ hpc
  intro r
  exact key (sizeOf r) r le_rfl

theorem pruneMaestro_preserves (P : SNode → Prop)
    (hstep : ∀ f children t, (∀ c ∈ children, P c) → simplifyStep f children = some t → P t) :
    ∀ (r : MRaw) (d : Nat) (t : SNode), pruneMaestroNodeD r d = some t → P t := by
  have key : ∀ (n : Nat) (r : MRaw), sizeOf r ≤ n →
      ∀ (d : Nat) (t : SNode), pruneMaestroNodeD r d = some t → P t := by
    intro n
    induction n with
    | zero =>
      intro r h
      exfalso
      cases r with
      | mk tx ax ti va rid ht b cl en fo se ch => simp only [MRaw.mk.sizeOf_spec] at h; omega
    | succ n ih =>
      intro r hr d t hp
      rw [pruneMaestroNodeD_eq] at hp
      refine hstep _ _ _ ?_ hp
      intro c hc
      obtain ⟨c0, hc0, hpc⟩ := mem_pruneMChildrenD _ _ _ hc
      have hlt : sizeOf c0 < sizeOf r := sizeOf_lt_of_mem_mChildren hc0
      exact ih c0 (by omega) _ _ hpc
  intro r
  exact key (sizeOf r) r le_rfl

theorem pruneSimplified_preserves (P : SNode → Prop)
    (hstep : ∀ f children t, (∀ c ∈ children, P c) → simplifyStep f children = some t → P t) :
    ∀ (n : SNode) (t : SNode), pruneSimplifiedNode n = some t → P t := by
  have key : ∀ (k : Nat) (n : SNode), sizeOf n ≤ k →
      ∀ (t : SNode), pruneSimplifiedNode n = some t → P t := by
    intro k
    induction k with
    | zero =>
      intro n h
      exfalso
      cases n with
      | mk t tx rid cd b cl en fo se ch => simp only [SNode.mk.sizeOf_spec] at h; omega
    | succ k ih =>
      intro n hn t hp
      rw [pruneSimplifiedNode_eq] at hp
      refine hstep _ _ _ ?_ hp
      intro c hc
      obtain ⟨c0, hc0, hpc⟩ := mem_pruneSChildren _ _ hc
      have hlt : sizeOf c0 < sizeOf n := sizeOf_lt_of_mem_sChildren hc0
      exact ih c0 (by omega) _ hpc
  intro n
  exact key (sizeOf n) n le_rfl

/-! ## One-step lemmas for idempotence and the pruned invariant -/

theorem pruneSChildren_of_stable : ∀ (l : List SNode),
    (∀ c ∈ l, pruneSimplifiedNode c = some c) → pruneSChildren l = l := by
  intro l
  induction l with
  | nil => intro _; rfl
  | cons c cs ih =>
    intro h
    rw [pruneSChildren, h c (List.mem_cons_self _ _),
        ih (fun x hx => h x (List.mem_cons_of_mem _ hx))]

theorem prunedInvariantAmendedList_of_all : ∀ (l : List SNode),
    (∀ c ∈ l, prunedInvariantAmended c = true) → prunedInvariantAmendedList l = true := by
  intro l
  induction l with
  | nil => intro _; rfl
  | cons c cs ih =>
    intro h
    rw [prunedInvariantAmendedList, h c (List.mem_cons_self _ _),
        ih (fun x hx => h x (List.mem_cons_of_mem _ hx))]
    rfl

theorem step_stable (f : NodeFields) (children : List SNode) (t : SNode)
    (hch : ∀ c ∈ children, pruneSimplifiedNode c = some c)
    (hstep : simplifyStep f children = some t) :
    pruneSimplifiedNode t = some t := by
  match children with
  | [] =>
    rw [simplifyStep_nil] at hstep
    split_ifs at hstep with hcond
    injection hstep with h
    subst h
    rw [buildNode_def, pruneSimplifiedNode_eq]
    simp only [SNode.type, SNode.text, SNode.resourceId, SNode.contentDesc, SNode.bounds,
      SNode.clickable, SNode.enabled, SNode.focused, SNode.selected, SNode.children]
    rw [show pruneSChildren [] = [] from rfl, simplifyStep_nil]
    dsimp only
    rw [truncateText_idem, if_neg hcond]
    rfl
  | [c] =>
    have hc := hch c (List.mem_singleton.mpr rfl)
    rw [simplifyStep_single] at hstep
    split_ifs at hstep with hcond
    · injection hstep with h
      subst h
      exact hc
    · injection hstep with h
      subst h
      rw [buildNode_def, pruneSimplifiedNode_eq]
      simp only [SNode.type, SNode.text, SNode.resourceId, SNode.contentDesc, SNode.bounds,
        SNode.clickable, SNode.enabled, SNode.focused, SNode.selected, SNode.children]
      rw [pruneSChildren_of_stable [c]
            (fun x hx => by rw [List.mem_singleton] at hx; subst hx; exact hc),
          simplifyStep_single]
      dsimp only
      rw [truncateText_idem, if_neg hcond]
      rfl
  | c1 :: c2 :: cs =>
    rw [simplifyStep_multi] at hstep
    injection hstep with h
    subst h
    rw [buildNode_def, pruneSimplifiedNode_eq]
    simp only [SNode.type, SNode.text, SNode.resourceId, SNode.contentDesc, SNode.bounds,
      SNode.clickable, SNode.enabled, SNode.focused, SNode.selected, SNode.children]
    rw [pruneSChildren_of_stable _ hch, simplifyStep_multi]
    dsimp only
    rw [truncateText_idem]
    rfl

theorem step_invariant (f : NodeFields) (children : List SNode) (t : SNode)
    (hch : ∀ c ∈ children, prunedInvariantAmended c = true)
    (hstep : simplifyStep f children = some t) :
    prunedInvariantAmended t = true := by
  match children with
  | [] =>
    rw [simplifyStep_nil] at hstep
    split_ifs at hstep with hcond
    injection hstep with h
    subst h
    rw [buildNode_def, prunedInvariantAmended]
    cases htx : (truncateText f.text == "") <;>
      cases hcd : (f.contentDesc == "") <;>
        cases hcl : f.clickable <;>
          cases hrid : (f.resourceId == "") <;>
            simp_all [prunedInvariantAmendedList]
  | [c] =>
    have hc := hch c (List.mem_singleton.mpr rfl)
    rw [simplifyStep_single] at hstep
    split_ifs at hstep with hcond
    · injection hstep with h
      subst h
      exact hc
    · injection hstep with h
      subst h
      rw [buildNode_def, prunedInvariantAmended]
      cases htx : (truncateText f.text == "") <;>
        cases hcd : (f.contentDesc == "") <;>
          cases hcl : f.clickable <;>
            cases hrid : (f.resourceId == "") <;>
              simp_all [prunedInvariantAmendedList]
  | c1 :: c2 :: cs =>
    rw [simplifyStep_multi] at hstep
    injection hstep with h
    subst h
    rw [buildNode_def, prunedInvariantAmended]
    case x_2 => simp
    case x_3 => simp
    show (true && prunedInvariantAmendedList (c1 :: c2 :: cs)) = true
    rw [prunedInvariantAmendedList_of_all _ hch]
    rfl

/-! ## Depth is threaded but never consulted -/

theorem pruneAChildrenD_congr : ∀ (cs : List ARaw) (d1 d2 : Nat),
    (∀ c ∈ cs, pruneAndroidNodeD c d1 = pruneAndroidNodeD c d2) →
    pruneAChildrenD cs d1 = pruneAChildrenD cs d2 := by
  intro cs d1 d2
  induction cs with
  | nil => intro _; rfl
  | cons c cs ih =>
    intro h
    rw [pruneAChildrenD, pruneAChildrenD, h c (List.mem_cons_self _ _),
        ih (fun x hx => h x (List.mem_cons_of_mem _ hx))]

theorem pruneMChildrenD_congr : ∀ (cs : List MRaw) (d1 d2 : Nat),
    (∀ c ∈ cs, pruneMaestroNodeD c d1 = pruneMaestroNodeD c d2) →
    pruneMChildrenD cs d1 = pruneMChildrenD cs d2 := by
  intro cs d1 d2
  induction cs with
  | nil => intro _; rfl
  | cons c cs ih =>
    intro h
    rw [pruneMChildrenD, pruneMChildrenD, h c (List.mem_cons_self _ _),
        ih (fun x hx => h x (List.mem_cons_of_mem _ hx))]

theorem pruneAndroidNodeD_depth : ∀ (r : ARaw) (d1 d2 : Nat),
    pruneAndroidNodeD r d1 = pruneAndroidNodeD r d2 := by
  have key : ∀ (n : Nat) (r : ARaw), sizeOf r ≤ n → ∀ (d1 d2 : Nat),
      pruneAndroidNodeD r d1 = pruneAndroidNodeD r d2 := by
    intro n
    induction n with
    | zero =>
      intro r h
      exfalso
      cases r with
      | mk tx rid cd b cls cl en fo se ch => simp only [ARaw.mk.sizeOf_spec] at h; omega
    | succ n ih =>
      intro r hr d1 d2
      rw [pruneAndroidNodeD_eq, pruneAndroidNodeD_eq]
      rw [pruneAChildrenD_congr r.children (d1 + 1) (d2 + 1)
            (fun c hc => ih c (by have := sizeOf_lt_of_mem_aChildren hc; omega) _ _)]
  intro r
  exact key (sizeOf r) r le_rfl

theorem pruneMaestroNodeD_depth : ∀ (r : MRaw) (d1 d2 : Nat),
    pruneMaestroNodeD r d1 = pruneMaestroNodeD r d2 := by
  have key : ∀ (n : Nat) (r : MRaw), sizeOf r ≤ n → ∀ (d1 d2 : Nat),
      pruneMaestroNodeD r d1 = pruneMaestroNodeD r d2 := by
    intro n
    induction n with
    | zero =>
      intro r h
      exfalso
      cases r with
      | mk tx ax ti va rid ht b cl en fo se ch => simp only [MRaw.mk.sizeOf_spec] at h; omega
    | succ n ih =>
      intro r hr d1 d2
      rw [pruneMaestroNodeD_eq, pruneMaestroNodeD_eq]
      rw [pruneMChildrenD_congr r.children (d1 + 1) (d2 + 1)
            (fun c hc => ih c (by have := sizeOf_lt_of_mem_mChildren hc; omega) _ _)]
  intro r
  exact key (sizeOf r) r le_rfl

/-! ## Claim theorems: the pruning engine (C2, C7, C8) -/

/-- C2 counterexample: the pruned output can contain a single-child
container with no text, no content-description and no resourceId (only
`clickable`), produced by the flattening rule's clickable exception — a
clickable generic Android wrapper around a non-clickable child of generic
type with a resourceId survives as a one-child container, so the spec's
container invariant (at least 2 children, or content/identity of its own)
is violated by this output tree. -/
theorem prunedInvariant_violated_by_clickable_wrapper :
    pruneAndroidNode
      (.mk "" "" "" "" "" "true" "" "" ""
        [.mk "" "idx" "" "" "" "" "" "" "" []]) =
      some (.mk "unknown" "" "" "" "" true false false false
        [.mk "unknown" "" "idx" "" "" false false false false []]) ∧
    prunedInvariant
      (.mk "unknown" "" "" "" "" true false false false
        [.mk "unknown" "" "idx" "" "" false false false false []]) = false :=
  ⟨rfl, rfl⟩

/-- C2 (amended): every tree either platform pruner returns satisfies the
amended PrunedNode invariant — every leaf has text or content-description,
or is clickable, or has a resourceId; and every node with children has at
least 2 children, or content or identity of its own, or is itself
clickable (the extra disjunct covers exactly the containers kept by the
flattening rule's clickable exception). -/
theorem pruned_trees_satisfy_amended_invariant :
    (∀ (r : ARaw) (t : SNode), pruneAndroidNode r = some t →
      prunedInvariantAmended t = true) ∧
    (∀ (m : MRaw) (t : SNode), pruneMaestroNode m = some t →
      prunedInvariantAmended t = true) :=
  ⟨fun r t h => pruneAndroid_preserves _ step_invariant r 0 t h,
   fun m t h => pruneMaestro_preserves _ step_invariant m 0 t h⟩

/-- C2 witness: the amended invariant holds of the concrete output of the
clickable-wrapper input. -/
theorem pruned_trees_satisfy_amended_invariant_witness :
    prunedInvariantAmended
      (.mk "unknown" "" "" "" "" true false false false
        [.mk "unknown" "" "idx" "" "" false false false false []]) = true :=
  pruned_trees_satisfy_amended_invariant.1
    (.mk "" "" "" "" "" "true" "" "" "" [.mk "" "idx" "" "" "" "" "" "" "" []]) _ rfl

/-- C7: the pruning engine is idempotent — re-running the
prune-and-simplify transform on any tree it has produced (from an Android
raw tree, a Maestro raw tree, or an already-normalized tree) returns that
tree unchanged. -/
theorem pruning_idempotent :
    (∀ (r : ARaw) (t : SNode), pruneAndroidNode r = some t →
      pruneSimplifiedNode t = some t) ∧
    (∀ (m : MRaw) (t : SNode), pruneMaestroNode m = some t →
      pruneSimplifiedNode t = some t) ∧
    (∀ (n t : SNode), pruneSimplifiedNode n = some t →
      pruneSimplifiedNode t = some t) :=
  ⟨fun r t h => pruneAndroid_preserves _ step_stable r 0 t h,
   fun m t h => pruneMaestro_preserves _ step_stable m 0 t h,
   fun n t h => pruneSimplified_preserves _ step_stable n t h⟩

/-- C7 witness: a concrete pruned output is a fixed point of the engine. -/
theorem pruning_idempotent_witness :
    pruneSimplifiedNode (.mk "unknown" "hello" "" "" "" false false false false []) =
      some (.mk "unknown" "hello" "" "" "" false false false false []) :=
  pruning_idempotent.1 (.mk "hello" "" "" "" "" "" "" "" "" []) _ rfl

/-- C8: the recursive pruners thread a depth argument but never consult
it — the result is identical for every starting depth, so no
depth-or-node-count ceiling exists and no defined fatal error is ever
raised, contrary to the claim.  (Termination on well-formed finite trees
holds, as both functions are total over the tree types.) -/
theorem prune_depth_never_consulted :
    (∀ (r : ARaw) (d1 d2 : Nat), pruneAndroidNodeD r d1 = pruneAndroidNodeD r d2) ∧
    (∀ (m : MRaw) (d1 d2 : Nat), pruneMaestroNodeD m d1 = pruneMaestroNodeD m d2) :=
  ⟨pruneAndroidNodeD_depth, pruneMaestroNodeD_depth⟩

/-! ## One-step lemmas for the flattening rule and the content check -/

theorem step_flatten (f : NodeFields) (c : SNode)
    (htx : f.text = "") (hrid : f.resourceId = "") (hcd : f.contentDesc = "") :
    simplifyStep f [c] =
    if f.clickable
        && !(c.clickable || strContains c.type "Button" || strContains c.type "Text")
    then some (buildNode f "" [c])
    else some c := by
  rw [simplifyStep_single, htx, hrid, hcd]
  cases hcl : f.clickable <;>
    cases hc1 : c.clickable <;>
      cases hc2 : strContains c.type "Button" <;>
        cases hc3 : strContains c.type "Text" <;>
          simp [hcl, hc1, hc2, hc3, truncateText_empty]

theorem step_content_kept (f : NodeFields) (h : f.text ≠ "") :
    simplifyStep f [] = some (buildNode f (truncateText f.text) []) ∧
    ∀ c, simplifyStep f [c] = some (buildNode f (truncateText f.text) [c]) := by
  have h1 : (truncateText f.text == "") = false := by
    rw [beq_eq_false_iff_ne]
    exact truncateText_ne_empty h
  constructor
  · rw [simplifyStep_nil, h1]
    simp
  · intro c
    rw [simplifyStep_single, h1]
    simp

/-! ## Claim theorems: flattening (C1) and the missing trim (C9) -/

/-- C1: for every raw node whose normalized attributes carry no resourceId,
no text and no content-description and whose children prune to exactly one
surviving child `c`, the pruner replaces the node by `c` — except when the
node is clickable and `c` is neither clickable nor of a type containing
"Button" or "Text", in which case the node is kept (with `c` as its only
child).  Stated for both platform normalizers. -/
theorem flattening_rule :
    (∀ (r : ARaw) (c : SNode),
      (aFields r).text = "" → (aFields r).resourceId = "" → (aFields r).contentDesc = "" →
      pruneAChildrenD r.children 1 = [c] →
      pruneAndroidNode r =
        if (aFields r).clickable
            && !(c.clickable || strContains c.type "Button" || strContains c.type "Text")
        then some (buildNode (aFields r) "" [c])
        else some c) ∧
    (∀ (m : MRaw) (c : SNode),
      (mFields m).text = "" → (mFields m).resourceId = "" → (mFields m).contentDesc = "" →
      pruneMChildrenD m.children 1 = [c] →
      pruneMaestroNode m =
        if (mFields m).clickable
            && !(c.clickable || strContains c.type "Button" || strContains c.type "Text")
        then some (buildNode (mFields m) "" [c])
        else some c) := by
  constructor
  · intro r c htx hrid hcd hch
    rw [pruneAndroidNode, pruneAndroidNodeD_eq, Nat.zero_add, hch,
        step_flatten _ _ htx hrid hcd]
  · intro m c htx hrid hcd hch
    rw [pruneMaestroNode, pruneMaestroNodeD_eq, Nat.zero_add, hch,
        step_flatten _ _ htx hrid hcd]

/-- C1 witness: the synthetic 3-level chain root(no identity) -> mid(no
identity, one child) -> leaf(text "OK") prunes to the single leaf node
`{type: leaf.type, text: "OK"}` with no nesting. -/
theorem flattening_rule_witness :
    pruneAChildrenD
      [ARaw.mk "" "" "" "" "" "" "" "" ""
        [ARaw.mk "OK" "" "" "" "android.widget.TextView" "" "" "" "" []]] 1 =
      [SNode.mk "android.widget.TextView" "OK" "" "" "" false false false false []] ∧
    pruneAndroidNode
      (.mk "" "" "" "" "" "" "" "" ""
        [.mk "" "" "" "" "" "" "" "" ""
          [.mk "OK" "" "" "" "android.widget.TextView" "" "" "" "" []]]) =
      some (.mk "android.widget.TextView" "OK" "" "" "" false false false false []) := by
  refine ⟨rfl, ?_⟩
  have h := flattening_rule.1
    (ARaw.mk "" "" "" "" "" "" "" "" ""
      [ARaw.mk "" "" "" "" "" "" "" "" ""
        [ARaw.mk "OK" "" "" "" "android.widget.TextView" "" "" "" "" []]])
    (SNode.mk "android.widget.TextView" "OK" "" "" "" false false false false [])
    rfl rfl rfl rfl
  exact h.trans rfl

/-- C9 counterexample: a node whose text is the single space " "
(nonempty, empty after trimming) is NOT treated as having no content: as a
leaf with no resourceId and clickable=false it is kept (the claim says
dropped), and with one surviving child it is not flattened (the claim says
eligible for flattening). -/
theorem whitespace_counted_as_content :
    pruneAndroidNode (.mk " " "" "" "" "" "" "" "" "" []) =
      some (.mk "unknown" " " "" "" "" false false false false []) ∧
    pruneAndroidNode (.mk " " "" "" "" "" "" "" "" ""
        [.mk "" "idw" "" "" "" "" "" "" "" []]) =
      some (.mk "unknown" " " "" "" "" false false false false
        [.mk "unknown" "" "idw" "" "" false false false false []]) :=
  ⟨rfl, rfl⟩

/-- C9 (amended): the content check performs no trimming — any nonempty
text, including a whitespace-only string, counts as content: such a node
with no surviving children is kept (not dropped), and such a node with one
surviving child is not flattened (it is kept with the child nested).
Stated for both platform normalizers. -/
theorem whitespace_content_amended :
    (∀ (r : ARaw), (aFields r).text ≠ "" → strAllWhitespace (aFields r).text = true →
      (pruneAChildrenD r.children 1 = [] →
        pruneAndroidNode r = some (buildNode (aFields r) (truncateText (aFields r).text) [])) ∧
      (∀ c, pruneAChildrenD r.children 1 = [c] →
        pruneAndroidNode r = some (buildNode (aFields r) (truncateText (aFields r).text) [c]))) ∧
    (∀ (m : MRaw), (mFields m).text ≠ "" → strAllWhitespace (mFields m).text = true →
      (pruneMChildrenD m.children 1 = [] →
        pruneMaestroNode m = some (buildNode (mFields m) (truncateText (mFields m).text) [])) ∧
      (∀ c, pruneMChildrenD m.children 1 = [c] →
        pruneMaestroNode m = some (buildNode (mFields m) (truncateText (mFields m).text) [c]))) := by
  constructor
  · intro r htx _
    constructor
    · intro hch
      rw [pruneAndroidNode, pruneAndroidNodeD_eq, Nat.zero_add, hch]
      exact (step_content_kept _ htx).1
    · intro c hch
      rw [pruneAndroidNode, pruneAndroidNodeD_eq, Nat.zero_add, hch]
      exact (step_content_kept _ htx).2 c
  · intro m htx _
    constructor
    · intro hch
      rw [pruneMaestroNode, pruneMaestroNodeD_eq, Nat.zero_add, hch]
      exact (step_content_kept _ htx).1
    · intro c hch
      rw [pruneMaestroNode, pruneMaestroNodeD_eq, Nat.zero_add, hch]
      exact (step_content_kept _ htx).2 c

/-- C9 witness: the space-text leaf from the counterexample, via the
amended statement. -/
theorem whitespace_content_amended_witness :
    (" " : String) ≠ "" ∧ strAllWhitespace " " = true ∧
    pruneAndroidNode (.mk " " "" "" "" "" "" "" "" ""
        [.mk "" "idw" "" "" "" "" "" "" "" []]) =
      some (.mk "unknown" " " "" "" "" false false false false
        [.mk "unknown" "" "idw" "" "" false false false false []]) := by
  refine ⟨by decide, by decide, ?_⟩
  have h := ((whitespace_content_amended.1
    (.mk " " "" "" "" "" "" "" "" "" [.mk "" "idw" "" "" "" "" "" "" "" []])
    (by decide) (by decide)).2
    (SNode.mk "unknown" "" "idw" "" "" false false false false []) rfl)
  exact h.trans rfl

/-! ## Claim theorems: the element query engine (C3) -/

theorem traverseFind_spec (sel : String) (st : Strategy) : ∀ (n : SNode) (acc : List ElemCoords),
    traverseFind sel st n acc =
      acc ++ ((preorderNodes n).filter (matchesNode sel st)).map enrichNode := by
  have hlist : ∀ (cs : List SNode) (acc : List ElemCoords),
      (∀ c ∈ cs, ∀ acc', traverseFind sel st c acc' =
        acc' ++ ((preorderNodes c).filter (matchesNode sel st)).map enrichNode) →
      traverseFindList sel st cs acc =
        acc ++ ((preorderList cs).filter (matchesNode sel st)).map enrichNode := by
    intro cs
    induction cs with
    | nil => intro acc _; simp [traverseFindList, preorderList]
    | cons c cs ih =>
      intro acc h
      rw [traverseFindList, h c (List.mem_cons_self _ _),
          ih _ (fun x hx => h x (List.mem_cons_of_mem _ hx)), preorderList]
      simp [List.filter_append, List.append_assoc]
  have key : ∀ (k : Nat) (n : SNode), sizeOf n ≤ k → ∀ acc,
      traverseFind sel st n acc =
        acc ++ ((preorderNodes n).filter (matchesNode sel st)).map enrichNode := by
    intro k
    induction k with
    | zero =>
      intro n h
      exfalso
      cases n with
      | mk t tx rid cd b cl en fo se ch => simp only [SNode.mk.sizeOf_spec] at h; omega
    | succ k ih =>
      intro n hn acc
      cases n with
      | mk t tx rid cd b cl en fo se ch =>
        rw [traverseFind]
        rw [hlist ch _ (fun c hc acc' => by
          have hlt : sizeOf c < sizeOf (SNode.mk t tx rid cd b cl en fo se ch) :=
            sizeOf_lt_of_mem_sChildren (by simpa [SNode.children] using hc)
          exact ih c (by omega) acc')]
        rw [preorderNodes, List.filter_cons]
        cases hm : matchesNode sel st (.mk t tx rid cd b cl en fo se ch) <;>
          simp [hm, List.append_assoc]
  intro n acc
  exact key (sizeOf n) n le_rfl acc

/-- C3: `findElement` performs a full pre-order (document order) traversal
of the pruned tree with no short-circuit, returning one enriched result per
matching node in that order — it equals filtering the pre-order node list
by the per-strategy match test and mapping result construction over it;
and the testId strategy is a suffix match, e.g. resourceId
"com.app:id/loginButton" matches selector "loginButton". -/
theorem findElement_is_preorder_filter_map :
    (∀ (root : SNode) (selector : String) (strategy : Strategy),
      findElement root selector strategy =
        ((preorderNodes root).filter (matchesNode selector strategy)).map enrichNode) ∧
    matchesNode "loginButton" .testId
      (.mk "android.widget.Button" "" "com.app:id/loginButton" "" "" true false false false []) =
      true := by
  constructor
  · intro root sel st
    rw [findElement, traverseFind_spec]
    rfl
  · rfl

/-! ## Lemmas about the bounds matcher -/

theorem munchDigits_append (ds : List Char) (x : Char) (rest : List Char)
    (hd : ∀ c ∈ ds, c.isDigit = true) (hx : x.isDigit = false) :
    munchDigits (ds ++ x :: rest) = (ds, x :: rest) := by
  induction ds with
  | nil => simp [munchDigits, hx]
  | cons c tl ih =>
    rw [List.cons_append, munchDigits, hd c (List.mem_cons_self _ _)]
    simp [ih (fun a ha => hd a (List.mem_cons_of_mem _ ha))]

theorem munchDigits_sound : ∀ (cs ds rest : List Char), munchDigits cs = (ds, rest) →
    cs = ds ++ rest ∧ ∀ c ∈ ds, c.isDigit = true := by
  intro cs
  induction cs with
  | nil =>
    intro ds rest h
    rw [munchDigits] at h
    injection h with h1 h2
    subst h1
    subst h2
    simp
  | cons c tl ih =>
    intro ds rest h
    rw [munchDigits] at h
    by_cases hc : c.isDigit
    · rw [hc] at h
      simp only [if_true] at h
      injection h with h1 h2
      obtain ⟨hcs, hdig⟩ := ih (munchDigits tl).1 (munchDigits tl).2 rfl
      subst h1
      subst h2
      constructor
      · rw [List.cons_append, ← hcs]
      · intro a ha
        rcases List.mem_cons.mp ha with h3 | h3
        · rw [h3]; exact hc
        · exact hdig a h3
    · rw [Bool.not_eq_true] at hc
      rw [hc] at h
      simp only [Bool.false_eq_true, if_false] at h
      injection h with h1 h2
      subst h1
      subst h2
      simp
  
theorem expectChar_self (c : Char) (rest : List Char) : expectChar c (c :: rest) = some rest := by
  simp [expectChar]

theorem expectChar_some {c : Char} {cs rest : List Char} (h : expectChar c cs = some rest) :
    cs = c :: rest := by
  cases cs with
  | nil => exact absurd h (by simp [expectChar])
  | cons x xs =>
    rw [expectChar] at h
    by_cases hx : x == c
    · rw [if_pos hx] at h
      injection h with h1
      rw [eq_of_beq hx, h1]
    · rw [if_neg hx] at h
      exact absurd h (by simp)

theorem expectNum_append (ds : List Char) (x : Char) (rest : List Char)
    (hne : ds ≠ []) (hd : ∀ c ∈ ds, c.isDigit = true) (hx : x.isDigit = false) :
    expectNum (ds ++ x :: rest) = some (parseNatDigits ds, x :: rest) := by
  rw [expectNum, munchDigits_append ds x rest hd hx]
  cases ds with
  | nil => exact absurd rfl hne
  | cons d tl => rfl

theorem expectNum_some {cs : List Char} {n : Nat} {rest : List Char}
    (h : expectNum cs = some (n, rest)) :
    ∃ ds, ds ≠ [] ∧ (∀ c ∈ ds, c.isDigit = true) ∧ cs = ds ++ rest ∧ n = parseNatDigits ds := by
  rw [expectNum] at h
  rcases hm : munchDigits cs with ⟨ds, rest'⟩
  rw [hm] at h
  cases ds with
  | nil => exact absurd h (by simp)
  | cons d tl =>
    injection h with h1
    injection h1 with h2 h3
    obtain ⟨hcs, hdig⟩ := munchDigits_sound cs _ _ hm
    subst h3
    exact ⟨d :: tl, by simp, hdig, hcs, h2.symm⟩

theorem matchGroup_append (da db : List Char) (post : List Char)
    (hane : da ≠ []) (had : ∀ c ∈ da, c.isDigit = true)
    (hbne : db ≠ []) (hbd : ∀ c ∈ db, c.isDigit = true) :
    matchGroup ('[' :: (da ++ ',' :: (db ++ ']' :: post))) =
      some (parseNatDigits da, parseNatDigits db, post) := by
  rw [matchGroup, expectChar_self '[']
  dsimp only
  rw [expectNum_append da ',' _ hane had rfl]
  dsimp only
  rw [expectChar_self ',']
  dsimp only
  rw [expectNum_append db ']' _ hbne hbd rfl]
  dsimp only
  rw [expectChar_self ']']

theorem matchGroup_some : ∀ (cs : List Char) (a b : Nat) (rest : List Char),
    matchGroup cs = some (a, b, rest) →
    ∃ da db, da ≠ [] ∧ (∀ c ∈ da, c.isDigit = true) ∧ db ≠ [] ∧ (∀ c ∈ db, c.isDigit = true) ∧
      cs = '[' :: (da ++ ',' :: (db ++ ']' :: rest)) ∧
      a = parseNatDigits da ∧ b = parseNatDigits db := by
  intro cs a b rest h
  rw [matchGroup] at h
  cases h1 : expectChar '[' cs with
  | none => rw [h1] at h; exact absurd h (by simp)
  | some cs1 =>
  rw [h1] at h
  dsimp only at h
  cases h2 : expectNum cs1 with
  | none => rw [h2] at h; exact absurd h (by simp)
  | some p1 =>
  obtain ⟨a1, cs2⟩ := p1
  rw [h2] at h
  dsimp only at h
  cases h3 : expectChar ',' cs2 with
  | none => rw [h3] at h; exact absurd h (by simp)
  | some cs3 =>
  rw [h3] at h
  dsimp only at h
  cases h4 : expectNum cs3 with
  | none => rw [h4] at h; exact absurd h (by simp)
  | some p2 =>
  obtain ⟨b1, cs4⟩ := p2
  rw [h4] at h
  dsimp only at h
  cases h5 : expectChar ']' cs4 with
  | none => rw [h5] at h; exact absurd h (by simp)
  | some cs5 =>
  rw [h5] at h
  dsimp only at h
  injection h with h6
  injection h6 with ha h7
  injection h7 with hb hrest
  obtain ⟨da, hane, had, hcs1, ha1⟩ := expectNum_some h2
  obtain ⟨db, hbne, hbd, hcs3, hb1⟩ := expectNum_some h4
  refine ⟨da, db, hane, had, hbne, hbd, ?_, by rw [← ha, ha1], by rw [← hb, hb1]⟩
  rw [expectChar_some h1, hcs1, expectChar_some h3, hcs3, expectChar_some h5, hrest]

theorem matchBoundsAt_shape (da db dc dd post : List Char)
    (ha : digitsGroup da) (hb : digitsGroup db) (hc : digitsGroup dc) (hd : digitsGroup dd) :
    matchBoundsAt (boundsShape da db dc dd ++ post) =
      some (parseNatDigits da, parseNatDigits db, parseNatDigits dc, parseNatDigits dd) := by
  obtain ⟨ha1, ha2⟩ := ha
  obtain ⟨hb1, hb2⟩ := hb
  obtain ⟨hc1, hc2⟩ := hc
  obtain ⟨hd1, hd2⟩ := hd
  have hshape : boundsShape da db dc dd ++ post =
      '[' :: (da ++ ',' :: (db ++ ']' :: ('[' :: (dc ++ ',' :: (dd ++ ']' :: post))))) := by
    simp [boundsShape]
  rw [hshape, matchBoundsAt, matchGroup_append da db _ ha1 ha2 hb1 hb2]
  dsimp only
  rw [matchGroup_append dc dd _ hc1 hc2 hd1 hd2]

theorem matchBoundsAt_some_shape {cs : List Char} {a b c d : Nat}
    (h : matchBoundsAt cs = some (a, b, c, d)) :
    ∃ da db dc dd rest,
      digitsGroup da ∧ digitsGroup db ∧ digitsGroup dc ∧ digitsGroup dd ∧
      cs = boundsShape da db dc dd ++ rest ∧
      a = parseNatDigits da ∧ b = parseNatDigits db ∧
      c = parseNatDigits dc ∧ d = parseNatDigits dd := by
  rw [matchBoundsAt] at h
  cases h1 : matchGroup cs with
  | none => rw [h1] at h; exact absurd h (by simp)
  | some p1 =>
  obtain ⟨a1, b1, cs1⟩ := p1
  rw [h1] at h
  dsimp only at h
  cases h2 : matchGroup cs1 with
  | none => rw [h2] at h; exact absurd h (by simp)
  | some p2 =>
  obtain ⟨c1, d1, cs2⟩ := p2
  rw [h2] at h
  dsimp only at h
  injection h with h3
  injection h3 with ha h4
  injection h4 with hb h5
  injection h5 with hcv hdv
  obtain ⟨da, db, hane, had, hbne, hbd, hcs, ha1, hb1⟩ := matchGroup_some _ _ _ _ h1
  obtain ⟨dc, dd, hcne, hcd, hdne, hdd, hcs1, hc1, hd1⟩ := matchGroup_some _ _ _ _ h2
  refine ⟨da, db, dc, dd, cs2, ⟨hane, had⟩, ⟨hbne, hbd⟩, ⟨hcne, hcd⟩, ⟨hdne, hdd⟩, ?_,
    by rw [← ha, ha1], by rw [← hb, hb1], by rw [← hcv, hc1], by rw [← hdv, hd1]⟩
  rw [hcs, hcs1]
  simp [boundsShape]

theorem not_shape_of_match_none {cs : List Char} (h : matchBoundsAt cs = none) :
    ¬ boundsShapeAt cs := by
  rintro ⟨da, db, dc, dd, rest, h1, h2, h3, h4, heq⟩
  rw [heq, matchBoundsAt_shape da db dc dd rest h1 h2 h3 h4] at h
  exact Option.noConfusion h

theorem match_none_of_not_shape {cs : List Char} (h : ¬ boundsShapeAt cs) :
    matchBoundsAt cs = none := by
  cases hm : matchBoundsAt cs with
  | none => rfl
  | some r =>
    exfalso
    obtain ⟨a, b, c, d⟩ := r
    obtain ⟨da, db, dc, dd, rest, h1, h2, h3, h4, heq, _⟩ := matchBoundsAt_some_shape hm
    exact h ⟨da, db, dc, dd, rest, h1, h2, h3, h4, heq⟩

theorem scanBounds_of_match {cs : List Char} {r : Nat × Nat × Nat × Nat}
    (h : matchBoundsAt cs = some r) : scanBounds cs = some r := by
  cases cs with
  | nil => exact absurd h (by simp [matchBoundsAt, matchGroup, expectChar])
  | cons x xs => rw [scanBounds, h]

theorem scanBounds_prefix_none : ∀ (pre rest : List Char),
    (∀ i, i < pre.length → matchBoundsAt (List.drop i (pre ++ rest)) = none) →
    scanBounds (pre ++ rest) = scanBounds rest := by
  intro pre
  induction pre with
  | nil => intro rest _; rfl
  | cons p ps ih =>
    intro rest hpre
    rw [List.cons_append, scanBounds]
    have h0 := hpre 0 (by simp)
    rw [List.drop_zero, List.cons_append] at h0
    rw [h0]
    exact ih rest (fun i hi => by
      have := hpre (i + 1) (by simpa using Nat.succ_lt_succ hi)
      rw [List.cons_append, List.drop_succ_cons] at this
      exact this)

theorem scanBounds_some_exists : ∀ (cs : List Char) (r : Nat × Nat × Nat × Nat),
    scanBounds cs = some r → ∃ i, matchBoundsAt (List.drop i cs) = some r := by
  intro cs
  induction cs with
  | nil => intro r h; exact absurd h (by simp [scanBounds])
  | cons x xs ih =>
    intro r h
    rw [scanBounds] at h
    cases hm : matchBoundsAt (x :: xs) with
    | some r2 =>
      rw [hm] at h
      injection h with h1
      subst h1
      exact ⟨0, by rw [List.drop_zero, hm]⟩
    | none =>
      rw [hm] at h
      dsimp only at h
      obtain ⟨i, hi⟩ := ih r h
      exact ⟨i + 1, by rw [List.drop_succ_cons]; exact hi⟩

/-! ## Claim theorems: the bounds parser (C4, C10) -/

/-- C4: for every well-formed bounds string `[a,b][c,d]` built from four
digit groups, `parseBounds` returns left/top/right/bottom as parsed,
centerX/centerY as the JS-rounded midpoints (`Math.round` of the average,
equal to `(x+y+1)/2` in integer division), and width/height as the plain
differences; the Nat-division midpoints agree with `Math.round` (`jsRound`)
of the rational averages; and for every string in which the pattern occurs
nowhere it returns `none` (the absence signal — the function is total, so
it never throws). -/
theorem parseBounds_contract :
    (∀ (da db dc dd : List Char),
      digitsGroup da → digitsGroup db → digitsGroup dc → digitsGroup dd →
      parseBounds (String.mk (boundsShape da db dc dd)) =
        some ⟨parseNatDigits da, parseNatDigits db, parseNatDigits dc, parseNatDigits dd,
          ((parseNatDigits da + parseNatDigits dc + 1) / 2 : Nat),
          ((parseNatDigits db + parseNatDigits dd + 1) / 2 : Nat),
          (parseNatDigits dc : Int) - parseNatDigits da,
          (parseNatDigits dd : Int) - parseNatDigits db⟩) ∧
    (∀ a b c d : Nat,
      (mkBRect a b c d).centerX = jsRound (((a : ℚ) + c) / 2) ∧
      (mkBRect a b c d).centerY = jsRound (((b : ℚ) + d) / 2)) ∧
    (∀ s : String, (∀ i, i < s.data.length → ¬ boundsShapeAt (s.data.drop i)) →
      parseBounds s = none) := by
  refine ⟨?_, ?_, ?_⟩
  · intro da db dc dd ha hb hc hd
    have hm : matchBoundsAt (boundsShape da db dc dd) =
        some (parseNatDigits da, parseNatDigits db, parseNatDigits dc, parseNatDigits dd) := by
      have h0 := matchBoundsAt_shape da db dc dd [] ha hb hc hd
      rwa [List.append_nil] at h0
    rw [parseBounds, show (String.mk (boundsShape da db dc dd)).data =
        boundsShape da db dc dd from rfl, scanBounds_of_match hm]
    rfl
  · intro a b c d
    constructor
    · show (((a + c + 1) / 2 : Nat) : Int) = jsRound (((a : ℚ) + c) / 2)
      rw [jsRound]
      have heq : ((a : ℚ) + c) / 2 + 1 / 2 = ((a + c + 1 : ℕ) : ℚ) / 2 := by
        push_cast
        ring
      rw [heq]
      norm_cast
    · show (((b + d + 1) / 2 : Nat) : Int) = jsRound (((b : ℚ) + d) / 2)
      rw [jsRound]
      have heq : ((b : ℚ) + d) / 2 + 1 / 2 = ((b + d + 1 : ℕ) : ℚ) / 2 := by
        push_cast
        ring
      rw [heq]
      norm_cast
  · intro s hs
    rw [parseBounds]
    cases hscan : scanBounds s.data with
    | none => rfl
    | some r =>
      exfalso
      obtain ⟨i, hi⟩ := scanBounds_some_exists _ _ hscan
      obtain ⟨a2, b2, c2, d2⟩ := r
      obtain ⟨da, db, dc, dd, rest, h1, h2, h3, h4, heq, _⟩ := matchBoundsAt_some_shape hi
      have hlen : i < s.data.length := by
        by_contra hcon
        push_neg at hcon
        rw [List.drop_eq_nil_of_le hcon] at heq
        rw [boundsShape] at heq
        exact absurd heq (by simp)
      exact hs i hlen ⟨da, db, dc, dd, rest, h1, h2, h3, h4, heq⟩

/-- C4 witness: `[10,20][110,220]` parses to the full record (center 60/120,
width 100, height 200), and a string with a non-numeric character in a
group parses to `none`. -/
theorem parseBounds_contract_witness :
    digitsGroup ['1', '0'] ∧
    parseBounds "[10,20][110,220]" = some ⟨10, 20, 110, 220, 60, 120, 100, 200⟩ ∧
    parseBounds "[10,20][110,22o]" = none := by
  refine ⟨by decide, ?_, ?_⟩
  · have h := parseBounds_contract.1 ['1', '0'] ['2', '0'] ['1', '1', '0'] ['2', '2', '0']
      (by decide) (by decide) (by decide) (by decide)
    have hs : String.mk (boundsShape ['1', '0'] ['2', '0'] ['1', '1', '0'] ['2', '2', '0']) =
        "[10,20][110,220]" := rfl
    rw [hs] at h
    exact h.trans (by decide)
  · apply parseBounds_contract.2.2
    intro i hi
    have hi16 : i < 16 := by
      rw [show ("[10,20][110,22o]" : String).data.length = 16 from rfl] at hi
      exact hi
    interval_cases i <;> exact not_shape_of_match_none (by rfl)

/-- C10: `parseBounds` matches unanchored — for every string containing a
well-formed `[a,b][c,d]` substring, with no earlier position at which the
pattern matches, it returns the rectangle parsed from that first occurrence
rather than the absence signal, even though the string as a whole is not of
the pattern's form. -/
theorem parseBounds_unanchored :
    ∀ (s : String) (pre post da db dc dd : List Char),
      digitsGroup da → digitsGroup db → digitsGroup dc → digitsGroup dd →
      s.data = pre ++ boundsShape da db dc dd ++ post →
      (∀ i, i < pre.length → ¬ boundsShapeAt (s.data.drop i)) →
      parseBounds s =
        some ⟨parseNatDigits da, parseNatDigits db, parseNatDigits dc, parseNatDigits dd,
          ((parseNatDigits da + parseNatDigits dc + 1) / 2 : Nat),
          ((parseNatDigits db + parseNatDigits dd + 1) / 2 : Nat),
          (parseNatDigits dc : Int) - parseNatDigits da,
          (parseNatDigits dd : Int) - parseNatDigits db⟩ := by
  intro s pre post da db dc dd ha hb hc hd hs hfirst
  rw [List.append_assoc] at hs
  have hm := matchBoundsAt_shape da db dc dd post ha hb hc hd
  have hpre : ∀ i, i < pre.length →
      matchBoundsAt (List.drop i (pre ++ (boundsShape da db dc dd ++ post))) = none := by
    intro i hi
    apply match_none_of_not_shape
    have h0 := hfirst i hi
    rwa [hs] at h0
  rw [parseBounds, hs, scanBounds_prefix_none pre _ hpre, scanBounds_of_match hm]
  rfl

/-- C10 witness: `"noise[1,2][3,4]tail"` contains the well-formed substring
`[1,2][3,4]` after 5 noise characters and parses to its rectangle. -/
theorem parseBounds_unanchored_witness :
    ("noise[1,2][3,4]tail" : String).data =
      ("noise" : String).data ++ boundsShape ['1'] ['2'] ['3'] ['4'] ++ ("tail" : String).data ∧
    parseBounds "noise[1,2][3,4]tail" = some ⟨1, 2, 3, 4, 2, 3, 2, 2⟩ := by
  refine ⟨by decide, ?_⟩
  have hfirst : ∀ i, i < (("noise" : String).data).length →
      ¬ boundsShapeAt (("noise[1,2][3,4]tail" : String).data.drop i) := by
    intro i hi
    have hi5 : i < 5 := by
      rw [show (("noise" : String).data).length = 5 from rfl] at hi
      exact hi
    interval_cases i <;> exact not_shape_of_match_none (by rfl)
  have h := parseBounds_unanchored "noise[1,2][3,4]tail" ("noise" : String).data
    ("tail" : String).data ['1'] ['2'] ['3'] ['4']
    (by decide) (by decide) (by decide) (by decide) (by rfl) hfirst
  exact h.trans (by decide)

/-! ## Claim theorems: the scroll controller (C5) -/

/-- C5 counterexample: on a 1000-pixel-tall Android viewport, direction
"down" swipes from `y = center + 333/2 = 666.5`, not `y = center + 166` as
the claim states (the half-distance is never rounded); and for direction
"left" on a 1000x400 Android viewport the computed offset is `133/2`
(from `round(screenHeight/3) = 133`), not the `333/2` that "1/3 of the
screen extent along the scroll axis" (`round(screenWidth/3) = 333`) would
give — the code always uses the screen height. -/
theorem scroll_vector_counterexample :
    scrollSwipeCoords .android .down 500 1000 = ⟨250, 500 + 333 / 2, 250, 500 - 333 / 2⟩ ∧
    ((500 : ℚ) + 333 / 2) ≠ 500 + 166 ∧
    scrollSwipeCoords .android .left 1000 400 = ⟨500 - 133 / 2, 200, 500 + 133 / 2, 200⟩ ∧
    ((500 : ℚ) - 133 / 2) ≠ 500 - 333 / 2 := by
  refine ⟨?_, by norm_num, ?_, by norm_num⟩
  · simp only [scrollSwipeCoords, jsRound]
    norm_num
  · simp only [scrollSwipeCoords, jsRound]
    norm_num

/-- C5 (amended): for every platform, direction and viewport, the swipe
vector starts from the JS-rounded screen center of the scale-adjusted
viewport (iOS dimensions are divided by the fixed factor 3 before the
vector is computed, Android by 1), with swipe distance
`Math.round(screenHeight / 3)` along the scroll axis for all four
directions (height-based even for left/right), sign inverted, and the
offset from center the exact unrounded `scrollDistance / 2`; in particular
the down/1000-tall Android example runs from `y = center + 166.5` to
`y = center - 166.5`. -/
theorem scroll_vector_amended :
    (∀ (p : Platform) (d : ScrollDirection) (w h : ℚ),
      scrollSwipeCoords p d w h = swipeSpecAmended p d w h) ∧
    scrollSwipeCoords .android .down 500 1000 = ⟨250, 500 + 333 / 2, 250, 500 - 333 / 2⟩ := by
  constructor
  · intro p d w h
    cases p <;> cases d <;> rfl
  · simp only [scrollSwipeCoords, jsRound]
    norm_num

/-! ## Claim theorems: the wait controller (C6) -/

theorem waitLoop_eq (found : Nat → Bool) (T k e : Nat) :
    waitLoop found T k e =
    if e < T then
      (if found k then .success (k + 1) e else waitLoop found T (k + 1) (e + 1000))
    else .timeout e := by
  rw [waitLoop]

theorem waitLoop_success : ∀ (n : Nat) (found : Nat → Bool) (T k e : Nat),
    (∀ j, j < n → found (k + j) = false) → found (k + n) = true → e + 1000 * n < T →
    waitLoop found T k e = .success (k + n + 1) (e + 1000 * n) := by
  intro n
  induction n with
  | zero =>
    intro found T k e hnone hfound hlt
    rw [waitLoop_eq, if_pos (by omega), show found k = true from by simpa using hfound]
    simp
  | succ n ih =>
    intro found T k e hnone hfound hlt
    rw [waitLoop_eq, if_pos (by omega),
        show found k = false from by simpa using hnone 0 (by omega)]
    simp only [Bool.false_eq_true, if_false]
    have hrec := ih found T (k + 1) (e + 1000)
      (fun j hj => by
        have := hnone (j + 1) (by omega)
        rwa [show k + (j + 1) = k + 1 + j from by omega] at this)
      (by rwa [show k + 1 + n = k + (n + 1) from by omega])
      (by omega)
    rw [hrec, show k + 1 + n + 1 = k + (n + 1) + 1 from by omega,
        show e + 1000 + 1000 * n = e + 1000 * (n + 1) from by ring]

theorem waitLoop_timeout : ∀ (n : Nat) (found : Nat → Bool) (T k e : Nat),
    (∀ j, found j = false) → T ≤ e + 1000 * n → e < T + 1000 →
    ∃ eF, waitLoop found T k e = .timeout eF ∧ T ≤ eF ∧ eF < T + 1000 := by
  intro n
  induction n with
  | zero =>
    intro found T k e hnone hle hlt
    rw [waitLoop_eq, if_neg (by omega)]
    exact ⟨e, rfl, by omega, hlt⟩
  | succ n ih =>
    intro found T k e hnone hle hlt
    by_cases he : e < T
    · rw [waitLoop_eq, if_pos he, hnone k]
      simp only [Bool.false_eq_true, if_false]
      exact ih found T (k + 1) (e + 1000) hnone (by omega) (by omega)
    · rw [waitLoop_eq, if_neg he]
      exact ⟨e, rfl, by omega, hlt⟩

/-- C6: the polling loop (idealized time: polls instantaneous, each sleep
exactly 1000 ms) returns success immediately at the first matching poll —
at elapsed time 1000k for the k-th (0-based) poll, reporting k+1 polls —
provided that poll starts before `timeoutMs`; if no poll ever matches it
raises the timeout failure at the first sleep boundary at or past
`timeoutMs` (so strictly less than `timeoutMs + 1000`); with
`timeoutMs = 500` and a never-appearing element it gives up at elapsed
1000 ms, after a single poll, before a second poll interval elapses; and
with an element appearing on the 3rd poll and the default 10000 ms budget
it succeeds at elapsed 2000 ms, well under ~3 seconds. -/
theorem waitForElement_polling :
    (∀ (found : Nat → Bool) (timeoutMs k : Nat),
      (∀ j, j < k → found j = false) → found k = true → 1000 * k < timeoutMs →
      waitForElement found timeoutMs = .success (k + 1) (1000 * k)) ∧
    (∀ (found : Nat → Bool) (timeoutMs : Nat), (∀ j, found j = false) →
      ∃ eF, waitForElement found timeoutMs = .timeout eF ∧
        timeoutMs ≤ eF ∧ eF < timeoutMs + 1000) ∧
    waitForElement (fun _ => false) 500 = .timeout 1000 ∧
    waitForElement (fun k => decide (2 ≤ k)) waitDefaultTimeoutMs = .success 3 2000 ∧
    (2000 : Nat) ≤ 3000 := by
  refine ⟨?_, ?_, ?_, ?_, by norm_num⟩
  · intro found T k h1 h2 h3
    have hres := waitLoop_success k found T 0 0
      (fun j hj => by simpa using h1 j hj) (by simpa using h2) (by omega)
    simpa [waitForElement] using hres
  · intro found T h
    have hres := waitLoop_timeout T found T 0 0 h (by omega) (by omega)
    simpa [waitForElement] using hres
  · rw [waitForElement, waitLoop_eq, if_pos (by norm_num)]
    norm_num
    rw [waitLoop_eq, if_neg (by norm_num)]
  · rw [waitForElement, waitDefaultTimeoutMs, waitLoop_eq, if_pos (by norm_num)]
    norm_num
    rw [waitLoop_eq, if_pos (by norm_num)]
    norm_num
    rw [waitLoop_eq, if_pos (by norm_num)]
    norm_num

/-- C6 witness: a target appearing on the 2nd poll under the default
budget succeeds at elapsed 1000 ms, and a never-appearing target with a
2500 ms budget times out between 2500 and 3500 ms. -/
theorem waitForElement_polling_witness :
    (∀ j, j < 1 → (fun k => decide (k = 1)) j = false) ∧
    waitForElement (fun k => decide (k = 1)) 10000 = .success 2 1000 ∧
    ∃ eF, waitForElement (fun _ => false) 2500 = .timeout eF ∧
      2500 ≤ eF ∧ eF < 2500 + 1000 := by
  refine ⟨by decide, ?_, ?_⟩
  · have h := waitForElement_polling.1 (fun k => decide (k = 1)) 10000 1
      (by decide) (by decide) (by norm_num)
    simpa using h
  · exact waitForElement_polling.2.1 (fun _ => false) 2500 (fun j => rfl)
